import Mathlib

/-!
Verification development for the defect thermal-migration voxelizer
(src/defect.py).  The Python source is embedded shallowly over the
rationals: every numeric quantity of the script becomes a rational
number, pandas tables become lists of records, and the two fatal exits
of the pipeline become Option-valued results (none = the run aborts).
-/

namespace Defect

/-- Python int() applied to a rational: truncation toward zero. -/
def pyInt (q : ℚ) : ℤ := if q < 0 then -⌊-q⌋ else ⌊q⌋

/-! ## Module-level grid-size adjustment (defect.py lines 54-61)

`Nx = math.ceil(max_x / delta_x); if Nx % 2 == 0: max_x = (1+Nx)*delta_x`
and the later allocation `int(max_x / delta_x)` (line 426). -/

/-- The extent after the parity adjustment of defect.py lines 56-61. -/
def adjustedMax (mx d : ℚ) : ℚ :=
  if ⌈mx / d⌉ % 2 = 0 then (1 + (⌈mx / d⌉ : ℚ)) * d else mx

/-- Number of grid samples used to allocate the simulation array
(defect.py line 426): `int(max_x / delta_x)` after the adjustment. -/
def allocCount (mx d : ℚ) : ℤ := pyInt (adjustedMax mx d / d)

/-! ## Heat-equation variables (defect.py lines 415-419) -/

/-- `delta_t = (delta_x * delta_y) / (4 * diffusion_coefficient)`. -/
def delta_t (D dx dy : ℚ) : ℚ := dx * dy / (4 * D)

/-- `gamma = (diffusion_coefficient * delta_t) / (delta_x * delta_y)`. -/
def gamma (D dx dy : ℚ) : ℚ := D * delta_t D dx dy / (dx * dy)

/-- `max_iterations = int(max_time / delta_t)`. -/
def maxIterations (T D dx dy : ℚ) : ℤ := pyInt (T / delta_t D dx dy)

/-! ## Air-cap thickness rounding (defect.py lines 143-151)

The stack assembler sums all thicknesses (air cap included) into
`total_thickness` and rounds it to a multiple of `delta_z * 0.001`
whose quotient is odd; the air layer absorbs the difference. -/

/-- `total_thickness_rounded` of defect.py lines 146-149. -/
def roundedTotal (dz total : ℚ) : ℚ :=
  if ⌈total / (dz * (1 / 1000))⌉ % 2 = 0 then
    dz * (1 / 1000) * ((⌈total / (dz * (1 / 1000))⌉ : ℚ) - 1)
  else
    dz * (1 / 1000) * (⌈total / (dz * (1 / 1000))⌉ : ℚ)

/-- `adjusted_airtop_thickness` of defect.py line 150, with `airtop`
standing for `Airtop_thickness * 0.001`. -/
def adjustedAirtop (dz total airtop : ℚ) : ℚ :=
  airtop + (roundedTotal dz total - total)

/-! ## Diffusion step (defect.py lines 236-253)

`image_shift_roll` composes two toroidal `np.roll` calls; the stencil of
`calculate2D` therefore reads the four axis neighbors with wraparound.
After each update the code re-applies its boundary assignments to every
time slice; the assignments are idempotent, so each slice keeps the
value it got right after its own creation, which is what the step
function below computes.  Note line 251 of the source assigns
`u[:, int(max_x/delta_x) - 1, 0] = 0`: only the single cell `(nx-1, 0)`
of the `x = nx-1` row, not the whole row. -/

/-- One application of the toroidal 4-neighbor stencil
(defect.py lines 246-247). -/
def diffusionUpdate (g : ℚ) (nx ny : ℕ) (u : ℕ → ℕ → ℚ) : ℕ → ℕ → ℚ :=
  fun x y =>
    g * (u x ((y + ny - 1) % ny) + u x ((y + 1) % ny)
         + u ((x + 1) % nx) y + u ((x + nx - 1) % nx) y - 4 * u x y)
    + u x y

/-- The four sequential boundary assignments of defect.py lines 249-252,
expressed as the final value of each cell. -/
def applyBoundary (nx ny : ℕ) (u : ℕ → ℕ → ℚ) : ℕ → ℕ → ℚ :=
  fun x y =>
    if y = 0 then 0
    else if x = 0 then 0
    else if x = nx - 1 ∧ y = 0 then 0
    else if y = ny - 1 then 0
    else u x y

/-- One loop iteration of `calculate2D`: stencil update followed by the
boundary assignments. -/
def calc2DStep (g : ℚ) (nx ny : ℕ) (u : ℕ → ℕ → ℚ) : ℕ → ℕ → ℚ :=
  applyBoundary nx ny (diffusionUpdate g nx ny u)

/-- The grid of `calculate2D` at time step `t`. -/
def calculate2D (g : ℚ) (nx ny : ℕ) (u0 : ℕ → ℕ → ℚ) : ℕ → ℕ → ℕ → ℚ
  | 0 => u0
  | t + 1 => calc2DStep g nx ny (calculate2D g nx ny u0 t)

/-- Initial condition used in the boundary counterexample: a single
heated cell at (3, 2) of a 5 x 5 grid. -/
def exInit : ℕ → ℕ → ℚ := fun x y => if x = 3 ∧ y = 2 then 4 else 0

/-! ## Theorems -/

/-- The three edges that the source does clamp are zero after a step. -/
theorem calc2DStep_clamped_edges (g : ℚ) (nx ny : ℕ) (u : ℕ → ℕ → ℚ)
    (x y : ℕ) (h : y = 0 ∨ x = 0 ∨ y = ny - 1) :
    calc2DStep g nx ny u x y = 0 := by
  unfold calc2DStep applyBoundary
  rcases h with h | h | h
  · simp [h]
  · by_cases hy : y = 0 <;> simp [h, hy]
  · by_cases hy : y = 0
    · simp [hy]
    · by_cases hx : x = 0 <;> simp [h, hx, hy]

/-- C1: the claim that all four edges of the grid are zero after every
update fails on the code.  With a 5 x 5 grid and one heated interior
cell at (3, 2), after one step the edge cell (4, 2) (on the row
`x = nx - 1 = 4`) holds the value 1, not 0: line 251 of the source only
zeroes the single cell `(nx-1, 0)` instead of the whole row. -/
theorem calculate2D_right_edge_nonzero :
    (4 = 5 - 1) ∧ calculate2D (1 / 4) 5 5 exInit 1 4 2 = 1 ∧ (1 : ℚ) ≠ 0 := by
  refine ⟨rfl, ?_, by norm_num⟩
  have h1 : calculate2D (1 / 4) 5 5 exInit 1 = calc2DStep (1 / 4) 5 5 exInit := rfl
  rw [h1]
  norm_num [calc2DStep, applyBoundary, diffusionUpdate, exInit]

/-- C6: with `delta_t` derived as `(dx * dy) / (4 * D)`, the stability
constant gamma is exactly 1/4 and the iteration count is the floor of
`time_budget / delta_t`. -/
theorem gamma_quarter_and_iterations (D dx dy T : ℚ)
    (hD : 0 < D) (hx : 0 < dx) (hy : 0 < dy) (hT : 0 ≤ T) :
    gamma D dx dy = 1 / 4 ∧ maxIterations T D dx dy = ⌊T / delta_t D dx dy⌋ := by
  have hxy : dx * dy ≠ 0 := by positivity
  constructor
  · unfold gamma delta_t
    field_simp
    ring
  · unfold maxIterations pyInt
    have hdt : 0 < delta_t D dx dy := by
      unfold delta_t
      positivity
    have hq : 0 ≤ T / delta_t D dx dy := div_nonneg hT hdt.le
    rw [if_neg (not_lt.mpr hq)]

/-- Witness for C6 at D = 1, dx = dy = 2, T = 10. -/
theorem gamma_quarter_and_iterations_witness :
    (0 < (1 : ℚ)) ∧ gamma 1 2 2 = 1 / 4 ∧
      maxIterations 10 1 2 2 = ⌊(10 : ℚ) / delta_t 1 2 2⌋ := by
  refine ⟨by norm_num, ?_⟩
  exact gamma_quarter_and_iterations 1 2 2 10 (by norm_num) (by norm_num)
    (by norm_num) (by norm_num)

/-- C8: the rounded total is an odd multiple of the z-resolution, it is
obtained by rounding down exactly when the ceiling quotient is even and
up otherwise, and the air-cap thickness absorbs exactly the difference
between the rounded and the raw total. -/
theorem roundedTotal_odd (dz total airtop : ℚ) (hdz : 0 < dz) :
    (∃ k : ℤ, Odd k ∧ roundedTotal dz total = dz * (1 / 1000) * k ∧
      roundedTotal dz total / (dz * (1 / 1000)) = k) ∧
    (⌈total / (dz * (1 / 1000))⌉ % 2 = 0 →
      roundedTotal dz total = dz * (1 / 1000) * ((⌈total / (dz * (1 / 1000))⌉ : ℚ) - 1)) ∧
    (⌈total / (dz * (1 / 1000))⌉ % 2 ≠ 0 →
      roundedTotal dz total = dz * (1 / 1000) * (⌈total / (dz * (1 / 1000))⌉ : ℚ)) ∧
    adjustedAirtop dz total airtop - airtop = roundedTotal dz total - total := by
  have hdz' : dz * (1 / 1000) ≠ 0 := by positivity
  refine ⟨?_, ?_, ?_, ?_⟩
  · by_cases h : ⌈total / (dz * (1 / 1000))⌉ % 2 = 0
    · refine ⟨⌈total / (dz * (1 / 1000))⌉ - 1, ?_, ?_, ?_⟩
      · rw [Int.odd_iff]
        omega
      · unfold roundedTotal
        rw [if_pos h]
        push_cast
        ring
      · unfold roundedTotal
        rw [if_pos h, mul_comm, mul_div_assoc, div_self hdz', mul_one]
        push_cast
        ring
    · refine ⟨⌈total / (dz * (1 / 1000))⌉, ?_, ?_, ?_⟩
      · rw [Int.odd_iff]
        omega
      · unfold roundedTotal
        rw [if_neg h]
      · unfold roundedTotal
        rw [if_neg h, mul_comm, mul_div_assoc, div_self hdz', mul_one]
  · intro h
    unfold roundedTotal
    rw [if_pos h]
  · intro h
    unfold roundedTotal
    rw [if_neg h]
  · unfold adjustedAirtop
    ring

/-- Witness for C8 at dz = 1, total = 1/100, airtop = 11/50
(the ceiling quotient is 10, even, so the total rounds down to 9/1000). -/
theorem roundedTotal_odd_witness :
    (0 < (1 : ℚ)) ∧
    ((∃ k : ℤ, Odd k ∧ roundedTotal 1 (1 / 100) = 1 * (1 / 1000) * k ∧
      roundedTotal 1 (1 / 100) / (1 * (1 / 1000)) = k) ∧
    (⌈(1 / 100 : ℚ) / (1 * (1 / 1000))⌉ % 2 = 0 →
      roundedTotal 1 (1 / 100) = 1 * (1 / 1000) * ((⌈(1 / 100 : ℚ) / (1 * (1 / 1000))⌉ : ℚ) - 1)) ∧
    (⌈(1 / 100 : ℚ) / (1 * (1 / 1000))⌉ % 2 ≠ 0 →
      roundedTotal 1 (1 / 100) = 1 * (1 / 1000) * (⌈(1 / 100 : ℚ) / (1 * (1 / 1000))⌉ : ℚ)) ∧
    adjustedAirtop 1 (1 / 100) (11 / 50) - 11 / 50 = roundedTotal 1 (1 / 100) - 1 / 100) :=
  ⟨by norm_num, roundedTotal_odd 1 (1 / 100) (11 / 50) (by norm_num)⟩

/-- C10: the claim that the allocated sample counts are always odd fails
on the code.  With extent 5 and delta 2 the ceiling quotient is 3 (odd),
so no adjustment fires, yet the allocation uses `int(5 / 2) = 2`, an
even count. -/
theorem allocCount_even_example :
    ⌈(5 : ℚ) / 2⌉ % 2 = 1 ∧ allocCount 5 2 = 2 ∧ ¬ Odd (allocCount 5 2) := by
  have hc : ⌈(5 : ℚ) / 2⌉ = 3 := by
    rw [Int.ceil_eq_iff]
    norm_num
  have hf : ⌊(5 : ℚ) / 2⌋ = 2 := by
    rw [Int.floor_eq_iff]
    norm_num
  have hm : adjustedMax 5 2 = 5 := by
    unfold adjustedMax
    rw [hc]
    norm_num
  have ha : allocCount 5 2 = 2 := by
    unfold allocCount pyInt
    rw [hm, if_neg (by norm_num)]
    exact hf
  refine ⟨by rw [hc]; decide, ha, ?_⟩
  rw [ha, Int.odd_iff]
  decide

/-! ## Depth resampler (defect.py lines 257-310, `changeDataRes`)

The input dataframe holds one row per (time, x, y) with a data value;
its distinct times are strictly increasing.  We embed the table as the
list of distinct times, the list of (x, y) cells, and a value function.
Hitting the bare `except` of lines 280-282 makes the Python function
print a diagnostic and return `None`, which kills the pipeline at the
first use of the result; the embedding returns `none` there. -/

/-- A row of the resampled table: time, x, y, data. -/
structure TRow where
  time : ℚ
  x : ℚ
  y : ℚ
  data : ℚ
deriving DecidableEq

/-- Tail-recursive core of `np.argmin`: index of the first element of
the remaining list (offset `i`) whose distance to `v` beats `bestd`,
defaulting to `besti`. -/
def argminAbsAux (v : ℚ) : List ℚ → ℕ → ℕ → ℚ → ℕ
  | [], _, besti, _ => besti
  | t :: rest, i, besti, bestd =>
    if |t - v| < bestd then argminAbsAux v rest (i + 1) i |t - v|
    else argminAbsAux v rest (i + 1) besti bestd

/-- `np.argmin(np.absolute(times - v))` (defect.py lines 271-272):
index of the first time closest to `v`. -/
def argminAbs (v : ℚ) : List ℚ → ℕ
  | [] => 0
  | t :: rest => argminAbsAux v rest 1 0 |t - v|

/-- The interpolated value written by defect.py line 286:
`col0 + 1 / (t1 - t0) * (col1 - col0)` where `t0 < t1` are the two
bracketing times as ordered by the pivot table.  Note the factor
`(v - t0)` of a true linear interpolation is absent in the source. -/
def interpValue (t0 t1 : ℚ) (f : ℚ → ℚ → ℚ → ℚ) (x y : ℚ) : ℚ :=
  f t0 x y + 1 / (t1 - t0) * (f t1 x y - f t0 x y)

/-- Resampling of a single required depth `v` (one iteration of the
loop at defect.py lines 262-293).  `none` models the bare `except`
branch (lines 280-282). -/
def resampleOne (times : List ℚ) (cells : List (ℚ × ℚ))
    (f : ℚ → ℚ → ℚ → ℚ) (v : ℚ) : Option (List TRow) :=
  if v ∈ times then
    some (cells.map fun c => ⟨v, c.1, c.2, f v c.1 c.2⟩)
  else if v < times.getD (argminAbs v times) 0 then
    some (cells.map fun c =>
      ⟨v, c.1, c.2,
        interpValue
          (min (times.getD ((argminAbs v times + (times.length - 1)) % times.length) 0)
            (times.getD (argminAbs v times) 0))
          (max (times.getD ((argminAbs v times + (times.length - 1)) % times.length) 0)
            (times.getD (argminAbs v times) 0))
          f c.1 c.2⟩)
  else if argminAbs v times + 1 < times.length then
    some (cells.map fun c =>
      ⟨v, c.1, c.2,
        interpValue
          (min (times.getD (argminAbs v times) 0) (times.getD (argminAbs v times + 1) 0))
          (max (times.getD (argminAbs v times) 0) (times.getD (argminAbs v times + 1) 0))
          f c.1 c.2⟩)
  else
    none

/-- The accumulation loop of `changeDataRes` over the required series,
short-circuiting on the fatal branch exactly as the Python `return`
does. -/
def changeDataResAux (times : List ℚ) (cells : List (ℚ × ℚ))
    (f : ℚ → ℚ → ℚ → ℚ) : List ℚ → Option (List TRow)
  | [] => some []
  | v :: rest =>
    match resampleOne times cells f v with
    | none => none
    | some rows =>
      match changeDataResAux times cells f rest with
      | none => none
      | some more => some (rows ++ more)

/-- The membership test of the deletion loop (defect.py lines 303-307):
a time survives when its distance to the series is below 0.01. -/
def nearSeries (series : List ℚ) (t : ℚ) : Bool :=
  series.any fun s => decide (|s - t| < 1 / 100)

/-- Ordering used by `sort_values(by=[time, x, y])`. -/
def rowLe (a b : TRow) : Bool :=
  decide (a.time < b.time ∨ (a.time = b.time ∧
    (a.x < b.x ∨ (a.x = b.x ∧ a.y ≤ b.y))))

/-- Insert into a list sorted by `le`. -/
def insertBy (le : α → α → Bool) (a : α) : List α → List α
  | [] => [a]
  | b :: rest => if le a b then a :: b :: rest else b :: insertBy le a rest

/-- Insertion sort by `le`. -/
def sortBy (le : α → α → Bool) : List α → List α
  | [] => []
  | a :: rest => insertBy le a (sortBy le rest)

/-- `changeDataRes` (defect.py lines 257-310): resample every required
depth, drop the times farther than 0.01 from the series, sort by
(time, x, y).  The sort before the deletion loop is order-equivalent to
the final sort and is folded into it. -/
def changeDataRes (times : List ℚ) (cells : List (ℚ × ℚ))
    (f : ℚ → ℚ → ℚ → ℚ) (series : List ℚ) : Option (List TRow) :=
  (changeDataResAux times cells f series).map fun rows =>
    sortBy rowLe (rows.filter fun r => nearSeries series r.time)

/-- The formula the specification prescribes for the resampler:
`value(t_lo) + (value(t_hi) - value(t_lo)) / (t_hi - t_lo) * (v - t_lo)`. -/
def specLinearInterp (tlo thi vlo vhi v : ℚ) : ℚ :=
  vlo + (vhi - vlo) / (thi - tlo) * (v - tlo)

/-- Sampled times of the resampler counterexample. -/
def exTimes : List ℚ := [0, 2]

/-- Cells of the resampler counterexample. -/
def exCells : List (ℚ × ℚ) := [(0, 0)]

/-- Value function of the resampler counterexample: 0 at time 0 and 4
at time 2. -/
def exValue : ℚ → ℚ → ℚ → ℚ := fun t _ _ => if t = 0 then 0 else 4

/-- C2: the claim that the resampler returns the linear interpolation
fails on the code.  For samples value(0) = 0 and value(2) = 4 and
required depth v = 1/2, the code returns 0 + (4 - 0) / (2 - 0) = 2
(defect.py line 286 omits the factor (v - t_lo)), while the linear
interpolation of the claim gives 1. -/
theorem changeDataRes_not_linear :
    changeDataRes exTimes exCells exValue [1 / 2] = some [⟨1 / 2, 0, 0, 2⟩] ∧
    specLinearInterp 0 2 0 4 (1 / 2) = 1 ∧ (2 : ℚ) ≠ 1 := by
  refine ⟨?_, by norm_num [specLinearInterp], by norm_num⟩
  norm_num [changeDataRes, changeDataResAux, resampleOne, exTimes, exCells,
    exValue, argminAbs, argminAbsAux, interpValue, nearSeries, sortBy,
    insertBy, List.filter, abs_of_nonneg, abs_of_nonpos]

/-- When every later element strictly improves on the running best
distance, the argmin scan ends on the final index. -/
theorem argminAbsAux_last (v : ℚ) (l : List ℚ) :
    ∀ (i besti : ℕ) (bestd : ℚ),
      List.Chain' (fun a b => |b - v| < |a - v|) l →
      (∀ t ∈ l.head?, |t - v| < bestd) →
      argminAbsAux v l i besti bestd = if l = [] then besti else i + l.length - 1 := by
  induction l with
  | nil =>
    intro i besti bestd _ _
    simp [argminAbsAux]
  | cons t rest ih =>
    intro i besti bestd hchain hhead
    have hd : |t - v| < bestd := hhead t rfl
    rw [argminAbsAux, if_pos hd]
    rcases List.chain'_cons'.mp hchain with ⟨hnext, htail⟩
    rw [ih (i + 1) i |t - v| htail hnext]
    cases rest with
    | nil => simp
    | cons r rest' =>
      simp only [List.length_cons, if_neg (List.cons_ne_nil r rest'),
        if_neg (List.cons_ne_nil t (r :: rest'))]
      omega

/-- On a strictly increasing list of times all below `v`, the closest
time to `v` is the last one (defect.py line 272 with a series whose
maximum does not reach the required depth). -/
theorem argminAbs_last (v : ℚ) (l : List ℚ) (hne : l ≠ [])
    (hchain : List.Chain' (· < ·) l) (hlt : ∀ t ∈ l, t < v) :
    argminAbs v l = l.length - 1 := by
  have hdist : ∀ (m : List ℚ), List.Chain' (· < ·) m → (∀ t ∈ m, t < v) →
      List.Chain' (fun a b => |b - v| < |a - v|) m := by
    intro m
    induction m with
    | nil => intro _ _; exact List.chain'_nil
    | cons a rest ihm =>
      intro hc hm
      cases rest with
      | nil => exact List.chain'_singleton a
      | cons b rest' =>
        rcases List.chain'_cons.mp hc with ⟨hab, hc'⟩
        refine List.chain'_cons.mpr ⟨?_, ihm hc' (fun t ht => hm t (List.mem_cons_of_mem a ht))⟩
        have ha : a < v := hm a (List.mem_cons_self _ _)
        have hb : b < v := hm b (List.mem_cons_of_mem a (List.mem_cons_self _ _))
        rw [abs_of_neg (sub_neg.mpr ha), abs_of_neg (sub_neg.mpr hb)]
        linarith
  cases l with
  | nil => exact absurd rfl hne
  | cons t rest =>
    rw [argminAbs]
    rcases List.chain'_cons'.mp hchain with ⟨hnext, htail⟩
    have hrest : List.Chain' (fun a b => |b - v| < |a - v|) rest :=
      hdist rest htail (fun s hs => hlt s (List.mem_cons_of_mem t hs))
    have hhead : ∀ s ∈ rest.head?, |s - v| < |t - v| := by
      intro s hs
      have hts : t < s := hnext s hs
      have hsv : s < v := by
        have : s ∈ t :: rest := by
          cases rest with
          | nil => cases hs
          | cons r rest' =>
            cases hs
            exact List.mem_cons_of_mem t (List.mem_cons_self _ _)
        exact hlt s this
      have htv : t < v := hlt t (List.mem_cons_self _ _)
      rw [abs_of_neg (sub_neg.mpr hsv), abs_of_neg (sub_neg.mpr htv)]
      linarith
    rw [argminAbsAux_last v rest 1 0 |t - v| hrest hhead]
    cases rest with
    | nil => simp
    | cons r rest' =>
      simp only [List.length_cons, if_neg (List.cons_ne_nil r rest')]
      omega

/-- If no sampled time lies strictly above the required depth `v`, the
resampling of `v` hits the bare `except` branch and yields `none`. -/
theorem resampleOne_none (times : List ℚ) (cells : List (ℚ × ℚ))
    (f : ℚ → ℚ → ℚ → ℚ) (v : ℚ) (hne : times ≠ [])
    (hchain : List.Chain' (· < ·) times)
    (hnot : v ∉ times) (hub : ∀ t ∈ times, t ≤ v) :
    resampleOne times cells f v = none := by
  have hlt : ∀ t ∈ times, t < v := by
    intro t ht
    refine lt_of_le_of_ne (hub t ht) ?_
    intro h
    exact hnot (h ▸ ht)
  have hlen : 1 ≤ times.length := by
    cases times with
    | nil => exact absurd rfl hne
    | cons a l => simp
  have hidx : argminAbs v times = times.length - 1 := argminAbs_last v times hne hchain hlt
  have hmem : times.getD (argminAbs v times) 0 ∈ times := by
    have hbound : argminAbs v times < times.length := by omega
    rw [List.getD_eq_getElem times 0 hbound]
    exact List.getElem_mem hbound
  rw [resampleOne, if_neg hnot, if_neg (not_lt.mpr (hlt _ hmem).le), if_neg (by omega)]

/-- The accumulation loop propagates the fatal branch: if any required
depth in the series resamples to `none`, the whole loop returns `none`. -/
theorem changeDataResAux_none (times : List ℚ) (cells : List (ℚ × ℚ))
    (f : ℚ → ℚ → ℚ → ℚ) (series : List ℚ) (v : ℚ)
    (hv : v ∈ series) (hnone : resampleOne times cells f v = none) :
    changeDataResAux times cells f series = none := by
  induction series with
  | nil => cases hv
  | cons a rest ih =>
    rcases List.mem_cons.mp hv with h | h
    · rw [changeDataResAux, ← h, hnone]
    · rw [changeDataResAux]
      cases hr : resampleOne times cells f a
      · rfl
      · rw [ih h]

/-- C9: if some required depth `v` has no sampled time strictly above it
(the times being the strictly increasing nonempty sample axis), the
depth resampler returns `none`: the run dies with the
extend-simulation-time diagnostic and no resampled output exists. -/
theorem changeDataRes_missing_bracket (times : List ℚ) (cells : List (ℚ × ℚ))
    (f : ℚ → ℚ → ℚ → ℚ) (series : List ℚ) (v : ℚ)
    (hne : times ≠ []) (hchain : List.Chain' (· < ·) times)
    (hv : v ∈ series) (hnot : v ∉ times) (hub : ∀ t ∈ times, t ≤ v) :
    changeDataRes times cells f series = none := by
  rw [changeDataRes,
    changeDataResAux_none times cells f series v hv
      (resampleOne_none times cells f v hne hchain hnot hub)]
  rfl

/-- Witness for C9: required depth 5 lies above both sampled times 0
and 2, so the resampler aborts. -/
theorem changeDataRes_missing_bracket_witness :
    ((5 : ℚ) ∈ [(5 : ℚ)]) ∧
      changeDataRes [0, 2] [(0, 0)] (fun _ _ _ => 0) [5] = none := by
  refine ⟨List.mem_cons_self _ _, ?_⟩
  refine changeDataRes_missing_bracket [0, 2] [(0, 0)] (fun _ _ _ => 0) [5] 5
    (by simp) ?_ (List.mem_cons_self _ _) (by norm_num) ?_
  · refine List.chain'_cons.mpr ⟨by norm_num, List.chain'_singleton 2⟩
  · intro t ht
    rcases List.mem_cons.mp ht with h | h
    · rw [h]; norm_num
    · rcases List.mem_cons.mp h with h2 | h2
      · rw [h2]; norm_num
      · cases h2

/-! ## Overlap resolver (defect.py lines 314-356, `detectOverwriteOverlap`)

The input dataframe has one row per (time, x, y); rows sharing a time
form a depth-slice.  A slice is embedded as its time plus the list of
data values in (x, y) order, so the positional index-alignment used by
the pandas arithmetic becomes positional list alignment.  The running
output dataframe is the list of slices accumulated so far; looking a
time up in it mirrors `df_output[df_output[time] == t]` (which may be
empty after a first-pair resolution dropped the current slice).
`sys.exit` on excessive overlaps becomes `none`.  The Python loop body
is `ovStep`; the `while` loop runs `counter_line` from 1 to
`len(times) - 2`, so the fuel is `length - 2` (the source crashes with
a NameError on fewer than 3 slices, which the embedding does not
model; every theorem below assumes at least 3 slices). -/

/-- A depth-slice: its time (depth) and its data values in row order. -/
structure OvSlice where
  time : ℚ
  data : List ℚ
deriving DecidableEq

instance : Inhabited OvSlice := ⟨⟨0, []⟩⟩

/-- `pandas.Series.subtract(other, fill_value=0)` on positionally
indexed series: elementwise difference, missing entries read as 0. -/
def subFill : List ℚ → List ℚ → List ℚ
  | [], [] => []
  | a :: as, [] => a :: subFill as []
  | [], b :: bs => -b :: subFill [] bs
  | a :: as, b :: bs => (a - b) :: subFill as bs

/-- Rows of the accumulated output whose time equals `t`
(`df_output[df_output[time] == t]`, defect.py line 321). -/
def lookupData (out : List OvSlice) (t : ℚ) : List ℚ :=
  ((out.filter fun s => decide (s.time = t)).map OvSlice.data).flatten

/-- The overlap test of defect.py lines 325-334: raise both slices by
their own time, subtract with fill 0, flag when any entry is
negative (`df_check_overlap.min() < 0`; an empty check series gives
NaN, which compares false, exactly as `any` on the empty list). -/
def overlapCheck (prevT curT : ℚ) (prevD curD : List ℚ) : Bool :=
  (subFill (curD.map fun a => a + curT) (prevD.map fun a => a + prevT)).any
    fun q => decide (q < 0)

/-- The branch structure of defect.py lines 334-348: on an overlap at
the first pair replace the whole output by the elementwise minimum of
the two raw slices (the current slice is dropped); on an overlap at a
later pair append the current slice with data replaced by the average
of the previous (resolved) and next (raw) slices; otherwise append the
current slice unchanged.  The boolean reports whether the overlap
counter was incremented. -/
def resolvePair (cl : ℕ) (out : List OvSlice) (prevT : ℚ) (prevD : List ℚ)
    (cur next : OvSlice) : List OvSlice × Bool :=
  if overlapCheck prevT cur.time prevD cur.data then
    if cl = 1 then
      ([⟨prevT, List.zipWith min prevD cur.data⟩], true)
    else
      (out ++ [⟨cur.time, List.zipWith (fun a b => (a + b) / 2) prevD next.data⟩], true)
  else
    (out ++ [cur], false)

/-- Time of the slice preceding position `cl` in the input. -/
def prevTime (slices : List OvSlice) (cl : ℕ) : ℚ :=
  (slices.getD (cl - 1) default).time

/-- One iteration of the while loop at position `counter_line = cl`:
the new output and the new overlap counter. -/
def ovStep (slices : List OvSlice) (cl : ℕ) (out : List OvSlice)
    (counter : ℕ) : List OvSlice × ℕ :=
  ((resolvePair cl out (prevTime slices cl)
      (lookupData out (prevTime slices cl))
      (slices.getD cl default) (slices.getD (cl + 1) default)).1,
   if (resolvePair cl out (prevTime slices cl)
      (lookupData out (prevTime slices cl))
      (slices.getD cl default) (slices.getD (cl + 1) default)).2
   then counter + 1 else counter)

/-- The while loop of defect.py lines 320-352 with `k` iterations left:
after each iteration, abort (`sys.exit`, line 350-352) as soon as
`counter_overlap / len(times) > 0.25`. -/
def ovGo (slices : List OvSlice) : ℕ → ℕ → List OvSlice → ℕ → Option (List OvSlice × ℕ)
  | 0, _, out, counter => some (out, counter)
  | k + 1, cl, out, counter =>
    if ((ovStep slices cl out counter).2 : ℚ) / (slices.length : ℚ) > 1 / 4 then
      none
    else
      ovGo slices k (cl + 1) (ovStep slices cl out counter).1
        (ovStep slices cl out counter).2

/-- The same walk without the abort, returning the final overlap
counter. -/
def ovCountGo (slices : List OvSlice) : ℕ → ℕ → List OvSlice → ℕ → ℕ
  | 0, _, _, counter => counter
  | k + 1, cl, out, counter =>
    ovCountGo slices k (cl + 1) (ovStep slices cl out counter).1
      (ovStep slices cl out counter).2

/-- Ordering used by the final `sort_values(by=[time, x, y])` on whole
slices. -/
def sliceLe (a b : OvSlice) : Bool := decide (a.time ≤ b.time)

/-- `detectOverwriteOverlap` (defect.py lines 314-356): seed the output
with slice 0, run the loop for positions 1 .. n-2, append the last
slice unchanged (line 353) and sort by time. -/
def detectOverwriteOverlap (slices : List OvSlice) : Option (List OvSlice) :=
  match ovGo slices (slices.length - 2) 1 [slices.headD default] 0 with
  | none => none
  | some r => some (sortBy sliceLe (r.1 ++ [slices.getD (slices.length - 1) default]))

/-- Total number of overlaps the walk detects (the abort removed). -/
def overlapCount (slices : List OvSlice) : ℕ :=
  ovCountGo slices (slices.length - 2) 1 [slices.headD default] 0

/-- Whether two adjacent raw slices overlap (height inversion at some
cell), the height being data plus time. -/
def pairInverted (a b : OvSlice) : Bool :=
  overlapCheck a.time b.time a.data b.data

/-- Number of inverted adjacent pairs among consecutive slices. -/
def countInvertedPairs : List OvSlice → ℕ
  | a :: b :: rest => (if pairInverted a b then 1 else 0) + countInvertedPairs (b :: rest)
  | _ => 0

/-- Eight depth-slices (times 0..7, one cell each) with exactly two
inverted adjacent pairs out of seven: (3,4) and (5,6). -/
def exJustOver : List OvSlice :=
  [⟨0, [0]⟩, ⟨1, [0]⟩, ⟨2, [0]⟩, ⟨3, [5]⟩, ⟨4, [0]⟩, ⟨5, [5]⟩, ⟨6, [0]⟩, ⟨7, [0]⟩]

/-- Four depth-slices whose only height inversion is the final pair
(2, 3). -/
def exLastPair : List OvSlice :=
  [⟨0, [0]⟩, ⟨1, [0]⟩, ⟨2, [0]⟩, ⟨3, [-10]⟩]

/-- Five depth-slices on which the walk detects two overlaps, enough to
trip the quarter-of-slice-count abort. -/
def exAbort : List OvSlice :=
  [⟨0, [0]⟩, ⟨1, [0]⟩, ⟨2, [-10]⟩, ⟨3, [-10]⟩, ⟨4, [0]⟩]

/-- Five depth-slices (times 0..4, one cell each) with exactly one
inverted adjacent pair out of four, the pair (1, 2): heights
0, 11, 2, 3, 4.  Resolving that overlap (average of slices 1 and 3
gives data 5, height 7) makes the walk flag a second overlap against
slice 3 (height 3), so the detected count exceeds the raw inverted-pair
count. -/
def exQuarterAbort : List OvSlice :=
  [⟨0, [0]⟩, ⟨1, [10]⟩, ⟨2, [0]⟩, ⟨3, [0]⟩, ⟨4, [0]⟩]

/-- C3 counterexample: both pairs-based readings of the threshold
sentence fail on the code.  On `exJustOver`, just over 25 percent of
the adjacent pairs are inverted (2 of 7) and the walk flags exactly
those two overlaps, yet the run does NOT abort: the source divides the
overlap count by the number of slices (8), and 2/8 does not exceed
0.25.  On `exQuarterAbort`, exactly 25 percent of the adjacent pairs
are inverted (1 of 4), yet the run DOES abort: resolving the one
inversion cascades into a second detected overlap, and 2/5 exceeds
0.25. -/
theorem quarterOfPairs_counterexamples :
    (countInvertedPairs exJustOver = 2 ∧
      4 * countInvertedPairs exJustOver > exJustOver.length - 1 ∧
      overlapCount exJustOver = 2 ∧
      detectOverwriteOverlap exJustOver ≠ none) ∧
    (countInvertedPairs exQuarterAbort = 1 ∧
      4 * countInvertedPairs exQuarterAbort = exQuarterAbort.length - 1 ∧
      overlapCount exQuarterAbort = 2 ∧
      detectOverwriteOverlap exQuarterAbort = none) := by
  refine ⟨⟨?_, ?_, ?_, ?_⟩, ⟨?_, ?_, ?_, ?_⟩⟩
  · norm_num [countInvertedPairs, pairInverted, overlapCheck, subFill, exJustOver]
  · norm_num [countInvertedPairs, pairInverted, overlapCheck, subFill, exJustOver]
  · norm_num [overlapCount, ovCountGo, ovStep, resolvePair, overlapCheck,
      subFill, lookupData, prevTime, exJustOver]
  · intro h
    norm_num [detectOverwriteOverlap, ovGo, ovStep, resolvePair, overlapCheck,
      subFill, lookupData, prevTime, exJustOver, sortBy, insertBy, sliceLe] at h
    exact Option.noConfusion h
  · norm_num [countInvertedPairs, pairInverted, overlapCheck, subFill, exQuarterAbort]
  · norm_num [countInvertedPairs, pairInverted, overlapCheck, subFill, exQuarterAbort]
  · norm_num [overlapCount, ovCountGo, ovStep, resolvePair, overlapCheck,
      subFill, lookupData, prevTime, exQuarterAbort]
  · norm_num [detectOverwriteOverlap, ovGo, ovStep, resolvePair, overlapCheck,
      subFill, lookupData, prevTime, exQuarterAbort, sortBy, insertBy, sliceLe]

/-- C4 counterexample: on `exLastPair` the final adjacent pair is
inverted, yet the resolver flags no overlap at all and returns the
input unchanged: the loop of defect.py lines 320-352 stops at
`counter_line = n - 2`, so the pair of the last two slices is never
examined and the last slice is appended raw (line 353). -/
theorem lastPair_never_checked :
    pairInverted (exLastPair.getD 2 default) (exLastPair.getD 3 default) = true ∧
    overlapCount exLastPair = 0 ∧
    detectOverwriteOverlap exLastPair = some exLastPair := by
  refine ⟨?_, ?_, ?_⟩
  · norm_num [pairInverted, overlapCheck, subFill, exLastPair]
  · norm_num [overlapCount, ovCountGo, ovStep, resolvePair, overlapCheck,
      subFill, lookupData, prevTime, exLastPair]
  · norm_num [detectOverwriteOverlap, ovGo, ovStep, resolvePair, overlapCheck,
      subFill, lookupData, prevTime, exLastPair, sortBy, insertBy, sliceLe]

/-- The ratio test of defect.py line 350 in integer form. -/
theorem ratioGtIff (c n : ℕ) (hn : 0 < n) :
    ((c : ℚ) / (n : ℚ) > 1 / 4) ↔ n < 4 * c := by
  rw [gt_iff_lt, div_lt_div_iff₀ (by norm_num) (by exact_mod_cast hn), one_mul]
  constructor
  · intro h
    exact_mod_cast (by linarith : (n : ℚ) < 4 * c)
  · intro h
    have hq : (n : ℚ) < 4 * c := by exact_mod_cast h
    linarith

/-- The overlap counter never decreases along the walk. -/
theorem ovCountGo_mono (slices : List OvSlice) :
    ∀ (k cl : ℕ) (out : List OvSlice) (counter : ℕ),
      counter ≤ ovCountGo slices k cl out counter := by
  intro k
  induction k with
  | zero =>
    intro cl out counter
    simp [ovCountGo]
  | succ k ih =>
    intro cl out counter
    have h2 : counter ≤ (ovStep slices cl out counter).2 := by
      simp only [ovStep]
      split <;> omega
    exact le_trans h2 (ih (cl + 1) (ovStep slices cl out counter).1
      (ovStep slices cl out counter).2)

/-- Abort characterization of the walk: starting from a counter at or
below a quarter of the slice count, the walk aborts exactly when the
full count of detected overlaps exceeds a quarter of the slice count. -/
theorem ovGo_none_iff (slices : List OvSlice) (hn : 0 < slices.length) :
    ∀ (k cl : ℕ) (out : List OvSlice) (counter : ℕ),
      4 * counter ≤ slices.length →
      (ovGo slices k cl out counter = none ↔
        slices.length < 4 * ovCountGo slices k cl out counter) := by
  intro k
  induction k with
  | zero =>
    intro cl out counter hc
    simp only [ovGo, ovCountGo]
    constructor
    · intro h
      exact Option.noConfusion h
    · intro h
      exact absurd h (by omega)
  | succ k ih =>
    intro cl out counter hc
    by_cases habort :
        ((ovStep slices cl out counter).2 : ℚ) / (slices.length : ℚ) > 1 / 4
    · have h1 : slices.length < 4 * (ovStep slices cl out counter).2 :=
        (ratioGtIff _ _ hn).mp habort
      have h2 := ovCountGo_mono slices k (cl + 1)
        (ovStep slices cl out counter).1 (ovStep slices cl out counter).2
      simp only [ovGo, ovCountGo]
      rw [if_pos habort]
      constructor
      · intro _
        omega
      · intro _
        rfl
    · have h1 : ¬ (slices.length < 4 * (ovStep slices cl out counter).2) :=
        fun h => habort ((ratioGtIff _ _ hn).mpr h)
      simp only [ovGo, ovCountGo]
      rw [if_neg habort]
      exact ih (cl + 1) (ovStep slices cl out counter).1
        (ovStep slices cl out counter).2 (by omega)

/-- C3 amended: the overlap resolver aborts the run if and only if the
number of overlaps its walk detects, divided by the number of depth
slices (not the number of adjacent pairs), strictly exceeds 0.25. -/
theorem detectOverwriteOverlap_abort_iff (slices : List OvSlice)
    (h3 : 3 ≤ slices.length) :
    detectOverwriteOverlap slices = none ↔
      ((overlapCount slices : ℚ) / (slices.length : ℚ) > 1 / 4) := by
  have hn : 0 < slices.length := by omega
  have hiff := ovGo_none_iff slices hn (slices.length - 2) 1
    [slices.headD default] 0 (by omega)
  rw [ratioGtIff _ _ hn]
  unfold detectOverwriteOverlap overlapCount
  cases hgo : ovGo slices (slices.length - 2) 1 [slices.headD default] 0 with
  | none =>
    rw [hgo] at hiff
    simp only [hgo]
    simpa using hiff
  | some r =>
    rw [hgo] at hiff
    simp only [hgo]
    refine iff_of_false (by simp) ?_
    intro hlt
    exact Option.noConfusion (hiff.mpr hlt)

/-- Witness for the C3 amended theorem on `exAbort` (where the walk
detects 2 overlaps among 5 slices and aborts). -/
theorem detectOverwriteOverlap_abort_iff_witness :
    3 ≤ exAbort.length ∧
      (detectOverwriteOverlap exAbort = none ↔
        ((overlapCount exAbort : ℚ) / (exAbort.length : ℚ) > 1 / 4)) :=
  ⟨by norm_num [exAbort], detectOverwriteOverlap_abort_iff exAbort (by norm_num [exAbort])⟩

/-- Reading a zipWith result at a valid index. -/
theorem zipWith_getD (f : ℚ → ℚ → ℚ) :
    ∀ (a b : List ℚ) (j : ℕ), j < a.length → j < b.length →
      (List.zipWith f a b).getD j 0 = f (a.getD j 0) (b.getD j 0) := by
  intro a
  induction a with
  | nil =>
    intro b j h _
    exact absurd h (Nat.not_lt_zero j)
  | cons x xs ih =>
    intro b j hja hjb
    cases b with
    | nil => exact absurd hjb (Nat.not_lt_zero j)
    | cons y ys =>
      cases j with
      | zero => simp [List.zipWith_cons_cons]
      | succ j =>
        rw [List.zipWith_cons_cons, List.getD_cons_succ, List.getD_cons_succ,
          List.getD_cons_succ]
        exact ih ys j (by simpa using hja) (by simpa using hjb)

/-- On equal-length slices the overlap test flags exactly the existence
of a cell whose current height (data plus time) lies strictly below the
previous height. -/
theorem overlapCheck_iff (prevT curT : ℚ) (prevD curD : List ℚ)
    (h : prevD.length = curD.length) :
    overlapCheck prevT curT prevD curD = true ↔
      ∃ j, j < curD.length ∧
        curD.getD j 0 + curT < prevD.getD j 0 + prevT := by
  induction prevD generalizing curD with
  | nil =>
    cases curD with
    | nil => simp [overlapCheck, subFill]
    | cons c cs => simp at h
  | cons p ps ih =>
    cases curD with
    | nil => simp at h
    | cons c cs =>
      have h' : ps.length = cs.length := by simpa using h
      have ihc := ih cs h'
      simp only [overlapCheck, List.map_cons, subFill, List.any_cons,
        Bool.or_eq_true, decide_eq_true_eq] at ihc ⊢
      constructor
      · rintro (h0 | hrest)
        · refine ⟨0, Nat.succ_pos _, ?_⟩
          simp only [List.getD_cons_zero]
          linarith
        · rcases ihc.mp hrest with ⟨j, hj, hlt⟩
          refine ⟨j + 1, by simpa using hj, ?_⟩
          simpa only [List.getD_cons_succ] using hlt
      · rintro ⟨j, hj, hlt⟩
        cases j with
        | zero =>
          left
          simp only [List.getD_cons_zero] at hlt
          linarith
        | succ j =>
          right
          refine ihc.mpr ⟨j, by simpa using hj, ?_⟩
          simpa only [List.getD_cons_succ] using hlt

/-- C5: the three resolution branches of the overlap resolver.  On
equal-length slices: the overlap flag is exactly a height inversion at
some cell; with no overlap the current slice is appended unchanged;
an overlap at the very first pair replaces the previous slice by the
elementwise minimum of the two raw slices; an overlap at a later pair
appends the current slice with its data replaced by the elementwise
average of the preceding (resolved) and following slices. -/
theorem resolvePair_branches (cl : ℕ) (out : List OvSlice) (prevT : ℚ)
    (prevD : List ℚ) (cur next : OvSlice)
    (h1 : prevD.length = cur.data.length)
    (h2 : next.data.length = cur.data.length) :
    (overlapCheck prevT cur.time prevD cur.data = true ↔
      ∃ j, j < cur.data.length ∧
        cur.data.getD j 0 + cur.time < prevD.getD j 0 + prevT) ∧
    (overlapCheck prevT cur.time prevD cur.data = false →
      resolvePair cl out prevT prevD cur next = (out ++ [cur], false)) ∧
    (overlapCheck prevT cur.time prevD cur.data = true → cl = 1 →
      ∃ d : List ℚ,
        resolvePair cl out prevT prevD cur next = ([⟨prevT, d⟩], true) ∧
        d.length = cur.data.length ∧
        ∀ j, j < cur.data.length →
          d.getD j 0 = min (prevD.getD j 0) (cur.data.getD j 0)) ∧
    (overlapCheck prevT cur.time prevD cur.data = true → cl ≠ 1 →
      ∃ d : List ℚ,
        resolvePair cl out prevT prevD cur next = (out ++ [⟨cur.time, d⟩], true) ∧
        d.length = cur.data.length ∧
        ∀ j, j < cur.data.length →
          d.getD j 0 = (prevD.getD j 0 + next.data.getD j 0) / 2) := by
  refine ⟨overlapCheck_iff prevT cur.time prevD cur.data h1, ?_, ?_, ?_⟩
  · intro hov
    simp [resolvePair, hov]
  · intro hov hcl
    subst hcl
    refine ⟨List.zipWith min prevD cur.data, ?_, ?_, ?_⟩
    · simp [resolvePair, hov]
    · rw [List.length_zipWith, h1, min_self]
    · intro j hj
      exact zipWith_getD min prevD cur.data j (by omega) hj
  · intro hov hcl
    refine ⟨List.zipWith (fun a b => (a + b) / 2) prevD next.data, ?_, ?_, ?_⟩
    · simp [resolvePair, hov, hcl]
    · rw [List.length_zipWith, h1, h2, min_self]
    · intro j hj
      exact zipWith_getD (fun a b => (a + b) / 2) prevD next.data j (by omega) (by omega)

/-- Witness for C5 at the concrete pair: position 2, previous slice
data [5] at time 3, current slice (4, [0]), next slice (5, [6]); the
pair overlaps and the average branch fires. -/
theorem resolvePair_branches_witness :
    (([(5 : ℚ)]).length = ((OvSlice.mk 4 [0]).data).length) ∧
    ((overlapCheck 3 (OvSlice.mk 4 [0]).time [(5 : ℚ)] (OvSlice.mk 4 [0]).data = true ↔
      ∃ j, j < ((OvSlice.mk 4 [0]).data).length ∧
        ((OvSlice.mk 4 [0]).data).getD j 0 + (OvSlice.mk 4 [0]).time <
          ([(5 : ℚ)]).getD j 0 + 3) ∧
    (overlapCheck 3 (OvSlice.mk 4 [0]).time [(5 : ℚ)] (OvSlice.mk 4 [0]).data = false →
      resolvePair 2 [] 3 [(5 : ℚ)] (OvSlice.mk 4 [0]) (OvSlice.mk 5 [6]) =
        ([] ++ [OvSlice.mk 4 [0]], false)) ∧
    (overlapCheck 3 (OvSlice.mk 4 [0]).time [(5 : ℚ)] (OvSlice.mk 4 [0]).data = true → 2 = 1 →
      ∃ d : List ℚ,
        resolvePair 2 [] 3 [(5 : ℚ)] (OvSlice.mk 4 [0]) (OvSlice.mk 5 [6]) =
          ([⟨3, d⟩], true) ∧
        d.length = ((OvSlice.mk 4 [0]).data).length ∧
        ∀ j, j < ((OvSlice.mk 4 [0]).data).length →
          d.getD j 0 = min (([(5 : ℚ)]).getD j 0) (((OvSlice.mk 4 [0]).data).getD j 0)) ∧
    (overlapCheck 3 (OvSlice.mk 4 [0]).time [(5 : ℚ)] (OvSlice.mk 4 [0]).data = true → 2 ≠ 1 →
      ∃ d : List ℚ,
        resolvePair 2 [] 3 [(5 : ℚ)] (OvSlice.mk 4 [0]) (OvSlice.mk 5 [6]) =
          ([] ++ [⟨(OvSlice.mk 4 [0]).time, d⟩], true) ∧
        d.length = ((OvSlice.mk 4 [0]).data).length ∧
        ∀ j, j < ((OvSlice.mk 4 [0]).data).length →
          d.getD j 0 = (([(5 : ℚ)]).getD j 0 + ((OvSlice.mk 5 [6]).data).getD j 0) / 2)) :=
  ⟨rfl, resolvePair_branches 2 [] 3 [(5 : ℚ)] (OvSlice.mk 4 [0]) (OvSlice.mk 5 [6]) rfl rfl⟩

/-- Strictly increasing slice times are pairwise increasing. -/
theorem chain_time_pairwise (l : List OvSlice)
    (h : List.Chain' (fun a b : OvSlice => a.time < b.time) l) :
    List.Pairwise (fun a b : OvSlice => a.time < b.time) l := by
  induction l with
  | nil => exact List.Pairwise.nil
  | cons a rest ih =>
    rcases List.chain'_cons'.mp h with ⟨hhead, htail⟩
    have hp := ih htail
    refine List.pairwise_cons.mpr ⟨?_, hp⟩
    intro b hb
    cases rest with
    | nil => cases hb
    | cons c rest' =>
      have hac : a.time < c.time := hhead c rfl
      rcases List.mem_cons.mp hb with h1 | h1
      · rw [h1]
        exact hac
      · exact hac.trans ((List.pairwise_cons.mp hp).1 b h1)

/-- Looking a slice time up in a list of slices with pairwise distinct
times returns exactly that slice's data. -/
theorem lookupData_eq (m : List OvSlice) (s : OvSlice)
    (hpw : m.Pairwise (fun a b : OvSlice => a.time ≠ b.time)) (hs : s ∈ m) :
    lookupData m s.time = s.data := by
  induction m with
  | nil => cases hs
  | cons a rest ih =>
    rcases List.pairwise_cons.mp hpw with ⟨hane, hrest⟩
    rcases List.mem_cons.mp hs with h | h
    · subst h
      have hfilter : rest.filter (fun x => decide (x.time = s.time)) = [] := by
        refine List.filter_eq_nil_iff.mpr ?_
        intro x hx
        simp only [decide_eq_true_eq]
        intro hxeq
        exact (hane x hx) hxeq.symm
      simp [lookupData, List.filter_cons, hfilter]
    · have hne2 : decide (a.time = s.time) = false :=
        decide_eq_false fun hEq => (hane s h) hEq
      have hrec := ih hrest h
      simp only [lookupData, List.filter_cons, hne2] at hrec ⊢
      simpa using hrec

/-- Insertion sort leaves a list alone when consecutive elements are
already in order. -/
theorem sortBy_of_chain (le : α → α → Bool) (l : List α)
    (h : List.Chain' (fun a b => le a b = true) l) : sortBy le l = l := by
  induction l with
  | nil => rfl
  | cons a rest ih =>
    rcases List.chain'_cons'.mp h with ⟨hhead, htail⟩
    rw [sortBy, ih htail]
    cases rest with
    | nil => rfl
    | cons b rest' =>
      rw [insertBy, if_pos (hhead b rfl)]

/-- The seed of the output dataframe is the prefix of length one. -/
theorem take_one_eq (slices : List OvSlice) (h : slices ≠ []) :
    [slices.headD default] = slices.take 1 := by
  cases slices with
  | nil => exact absurd rfl h
  | cons a rest => rfl

/-- When every examined pair (positions 0 .. n-3 against their
successors) is overlap-free, the walk copies its input: starting from
the prefix of length `cl` it ends with the prefix of length `cl + k`
and the counter never moves.  Nothing is assumed about the final pair,
which the loop never reaches. -/
theorem ovGo_clean (slices : List OvSlice)
    (hpw : slices.Pairwise (fun a b : OvSlice => a.time ≠ b.time))
    (hno : ∀ i, i < slices.length - 2 →
      pairInverted (slices.getD i default) (slices.getD (i + 1) default) = false) :
    ∀ (k cl : ℕ), 1 ≤ cl → cl + k ≤ slices.length - 1 →
      ovGo slices k cl (slices.take cl) 0 = some (slices.take (cl + k), 0) ∧
      ovCountGo slices k cl (slices.take cl) 0 = 0 := by
  intro k
  induction k with
  | zero =>
    intro cl _ _
    exact ⟨by simp [ovGo], by simp [ovCountGo]⟩
  | succ k ih =>
    intro cl h1 h2
    have hcl_lt : cl < slices.length := by omega
    have hcl1_lt : cl - 1 < slices.length := by omega
    have hmem : slices.getD (cl - 1) default ∈ slices.take cl := by
      have hidx : cl - 1 < (slices.take cl).length := by
        rw [List.length_take]
        omega
      have hm := List.getElem_mem hidx
      rwa [List.getElem_take, ← List.getD_eq_getElem slices default hcl1_lt] at hm
    have hlook : lookupData (slices.take cl) (prevTime slices cl) =
        (slices.getD (cl - 1) default).data := by
      have hpw' : (slices.take cl).Pairwise (fun a b : OvSlice => a.time ≠ b.time) :=
        hpw.sublist (List.take_sublist cl slices)
      simpa only [prevTime] using
        lookupData_eq (slices.take cl) (slices.getD (cl - 1) default) hpw' hmem
    have hnoov : overlapCheck (prevTime slices cl)
        (slices.getD cl default).time
        ((slices.getD (cl - 1) default).data)
        ((slices.getD cl default).data) = false := by
      have hfalse := hno (cl - 1) (by omega)
      rw [pairInverted] at hfalse
      have hplus : cl - 1 + 1 = cl := by omega
      rw [hplus] at hfalse
      simpa [prevTime] using hfalse
    have hrp : resolvePair cl (slices.take cl) (prevTime slices cl)
        ((slices.getD (cl - 1) default).data)
        (slices.getD cl default) (slices.getD (cl + 1) default) =
        (slices.take cl ++ [slices.getD cl default], false) := by
      unfold resolvePair
      rw [hnoov]
      simp
    have hstep : ovStep slices cl (slices.take cl) 0 =
        (slices.take cl ++ [slices.getD cl default], 0) := by
      simp only [ovStep, hlook, hrp]
      simp
    have htake : slices.take cl ++ [slices.getD cl default] = slices.take (cl + 1) := by
      rw [List.getD_eq_getElem slices default hcl_lt, List.take_succ,
        List.getElem?_eq_getElem hcl_lt]
      simp
    rcases ih (cl + 1) (by omega) (by omega) with ⟨ihgo, ihcount⟩
    have harith : cl + (k + 1) = cl + 1 + k := by omega
    constructor
    · simp only [ovGo, hstep]
      rw [if_neg (by norm_num)]
      rw [htake, harith]
      exact ihgo
    · simp only [ovCountGo, hstep]
      rw [htake]
      exact ihcount

/-- C4 amended: the overlap resolver examines only the adjacent pairs
at positions (i, i+1) for i up to n-3; the pair formed by the last two
slices is never checked, and the final slice is appended unchanged.
Consequently, an input (with strictly increasing times) that is
overlap-free on all examined pairs passes through unchanged with a zero
counter, no matter what the last pair does. -/
theorem detectOverwriteOverlap_skips_last (slices : List OvSlice)
    (h3 : 3 ≤ slices.length)
    (hchain : List.Chain' (fun a b : OvSlice => a.time < b.time) slices)
    (hno : ∀ i, i < slices.length - 2 →
      pairInverted (slices.getD i default) (slices.getD (i + 1) default) = false) :
    detectOverwriteOverlap slices = some slices ∧ overlapCount slices = 0 := by
  have hne : slices ≠ [] := by
    intro h
    rw [h] at h3
    simp at h3
  have hpw : slices.Pairwise (fun a b : OvSlice => a.time ≠ b.time) :=
    (chain_time_pairwise slices hchain).imp fun hab => ne_of_lt hab
  rcases ovGo_clean slices hpw hno (slices.length - 2) 1 (le_refl 1) (by omega)
    with ⟨hgo, hcount⟩
  have h1k : 1 + (slices.length - 2) = slices.length - 1 := by omega
  rw [h1k] at hgo
  have hlt : slices.length - 1 < slices.length := by omega
  have hsplit : slices.take (slices.length - 1 + 1) =
      slices.take (slices.length - 1) ++ [slices.getD (slices.length - 1) default] := by
    rw [List.getD_eq_getElem slices default hlt, List.take_succ,
      List.getElem?_eq_getElem hlt]
    simp
  have hfull : slices.length - 1 + 1 = slices.length := by omega
  rw [hfull, List.take_length] at hsplit
  constructor
  · have hdet : detectOverwriteOverlap slices =
        some (sortBy sliceLe
          (slices.take (slices.length - 1) ++
            [slices.getD (slices.length - 1) default])) := by
      unfold detectOverwriteOverlap
      rw [take_one_eq slices hne, hgo]
    rw [hdet, ← hsplit,
      sortBy_of_chain sliceLe slices
        (hchain.imp fun a b hab => decide_eq_true (le_of_lt hab))]
  · unfold overlapCount
    rw [take_one_eq slices hne, hcount]

/-- Witness for the C4 amended theorem on `exLastPair`: the two
examined pairs are clean, so the input passes through unchanged even
though its final pair is inverted. -/
theorem detectOverwriteOverlap_skips_last_witness :
    3 ≤ exLastPair.length ∧
      (detectOverwriteOverlap exLastPair = some exLastPair ∧
        overlapCount exLastPair = 0) := by
  refine ⟨by norm_num [exLastPair], ?_⟩
  refine detectOverwriteOverlap_skips_last exLastPair (by norm_num [exLastPair]) ?_ ?_
  · norm_num [exLastPair, List.chain'_cons, List.chain'_singleton]
  · intro i hi
    have hi2 : i < 2 := by simpa [exLastPair] using hi
    interval_cases i <;>
      norm_num [exLastPair, pairInverted, overlapCheck, subFill]

/-! ## Mask classifier (defect.py lines 652-657)

The polygon-containment column `inside_polygon` of `df_xy` is the
point-in-polygon collaborator; it enters the embedding as an abstract
function from (x, y) to Bool.  The source splits the table into the
non-absorber rows (kept verbatim) and the absorber rows (material
reassigned to air exactly when containment equals the tone flag),
then appends the two parts. -/

/-- A row of the merged depth/material table: position, depth value and
material. -/
structure VRow where
  x : ℚ
  y : ℚ
  data : ℚ
  material : String
deriving DecidableEq

/-- Reassignment of the material column of one row. -/
def setMaterial (r : VRow) (m : String) : VRow := ⟨r.x, r.y, r.data, m⟩

/-- The absorber reassignment of defect.py lines 653-657. -/
def applyMaskTone (absorbers : List String) (inside : ℚ → ℚ → Bool)
    (tone : Bool) (rows : List VRow) : List VRow :=
  (rows.filter fun r => !(absorbers.contains r.material)) ++
    (rows.filter fun r => absorbers.contains r.material).map
      fun r => if inside r.x r.y = tone then setMaterial r "air" else r

/-- C7: every absorber-material row is reassigned to air exactly when
its containment equals the tone flag, keeping every other column; every
non-absorber row passes through untouched; and the output contains
nothing else. -/
theorem applyMaskTone_correct (absorbers : List String)
    (inside : ℚ → ℚ → Bool) (tone : Bool) (rows : List VRow) :
    (∀ r ∈ rows, absorbers.contains r.material = true →
      (if inside r.x r.y = tone then setMaterial r "air" else r) ∈
        applyMaskTone absorbers inside tone rows) ∧
    (∀ r ∈ rows, absorbers.contains r.material = false →
      r ∈ applyMaskTone absorbers inside tone rows) ∧
    (∀ s ∈ applyMaskTone absorbers inside tone rows, ∃ r ∈ rows,
      s.x = r.x ∧ s.y = r.y ∧ s.data = r.data ∧
      ((absorbers.contains r.material = false ∧ s.material = r.material) ∨
       (absorbers.contains r.material = true ∧
         s.material = (if inside r.x r.y = tone then "air" else r.material)))) := by
  refine ⟨?_, ?_, ?_⟩
  · intro r hr habs
    refine List.mem_append_right _ ?_
    exact List.mem_map.mpr ⟨r, List.mem_filter.mpr ⟨hr, habs⟩, rfl⟩
  · intro r hr habs
    refine List.mem_append_left _ ?_
    refine List.mem_filter.mpr ⟨hr, ?_⟩
    rw [habs]
    rfl
  · intro s hs
    rcases List.mem_append.mp hs with h | h
    · rcases List.mem_filter.mp h with ⟨hr, hb⟩
      refine ⟨s, hr, rfl, rfl, rfl, Or.inl ⟨?_, rfl⟩⟩
      simpa using hb
    · rcases List.mem_map.mp h with ⟨r, hrf, heq⟩
      rcases List.mem_filter.mp hrf with ⟨hr, htrue⟩
      by_cases hin : inside r.x r.y = tone
      · rw [if_pos hin] at heq
        refine ⟨r, hr, ?_, ?_, ?_, Or.inr ⟨htrue, ?_⟩⟩ <;>
          simp [← heq, setMaterial, hin]
      · rw [if_neg hin] at heq
        refine ⟨r, hr, ?_, ?_, ?_, Or.inr ⟨htrue, ?_⟩⟩ <;>
          simp [← heq, hin]

/-- Concrete rows for the mask-classifier witness: one absorber row and
one non-absorber row at the origin. -/
def exRows : List VRow := [⟨0, 0, 0, "TaN"⟩, ⟨0, 0, 1, "Si"⟩]

/-- Witness for C7: with a polygon containing everything and positive
tone, the absorber row of `exRows` reappears with material air. -/
theorem applyMaskTone_correct_witness :
    ((⟨0, 0, 0, "TaN"⟩ : VRow) ∈ exRows) ∧
      ((if (fun _ _ => true : ℚ → ℚ → Bool) (0 : ℚ) (0 : ℚ) = true
          then setMaterial ⟨0, 0, 0, "TaN"⟩ "air" else ⟨0, 0, 0, "TaN"⟩) ∈
        applyMaskTone ["TaN"] (fun _ _ => true) true exRows) := by
  refine ⟨List.mem_cons_self _ _, ?_⟩
  exact (applyMaskTone_correct ["TaN"] (fun _ _ => true) true exRows).1
    ⟨0, 0, 0, "TaN"⟩ (List.mem_cons_self _ _) rfl

end Defect
